import Mathlib

/-!
# HornetHiveAccounting — verification of the identity core (`src/auth.js`)

A shallow embedding of the auth module of the HornetHive backend.  User
records coming back from the `users` table are JavaScript objects; we model
them as association lists from field names to values.  The Supabase store
is modelled by its documented request/response behaviour (`.eq`, `.ilike`,
`.single`, `.maybeSingle`, `.insert`, `.update`), and bcrypt by an abstract
injective hasher whose output carries the `$2` prefix marker, as the spec's
PasswordHasher contract requires.  JavaScript dates are modelled at calendar
granularity (year / 0-based month / 1-based day), which is the level at
which `setMonth` arithmetic operates.
-/

namespace HornetHive

/-- A field value of a user record: the columns used by `auth.js` hold
strings (including timestamps rendered by `toISOString`) and booleans. -/
inductive Value where
  | vStr (s : String)
  | vBool (b : Bool)
deriving DecidableEq, Repr

/-- A user record / JavaScript object: an association list from field
names to values (first binding wins on lookup; the record constructors
below never produce duplicate keys). -/
abbrev Rec := List (String × Value)

/-- Field access `r.k`: `none` models JavaScript `undefined`. -/
def lookupF (r : Rec) (k : String) : Option Value :=
  match r with
  | [] => none
  | (k', v) :: r' => if k' = k then some v else lookupF r' k

/-- Drop every binding of the key `k`, keeping all other fields in
order. -/
def eraseKey : Rec → String → Rec
  | [], _ => []
  | (k', v) :: r, k => if k' = k then eraseKey r k else (k', v) :: eraseKey r k

/-- Object-spread override `{ ...r, k: v }`: any previous binding of `k`
is replaced by `v` (binding order is irrelevant to field lookup). -/
def setField (r : Rec) (k : String) (v : Value) : Rec :=
  eraseKey r k ++ [(k, v)]

/-- Rest-destructuring `const { k: _, ...rest } = r`: drops the field `k`
and keeps every other field. -/
def removeField (r : Rec) (k : String) : Rec :=
  eraseKey r k

/-- JavaScript truthiness of a possibly-absent field value
(`undefined`, `false` and `""` are falsy). -/
def truthy : Option Value → Bool
  | none => false
  | some (.vStr s) => s ≠ ""
  | some (.vBool b) => b

/-- `v || ''` on a possibly-absent field: the string value when present,
`""` otherwise (used by `auth.js` for `user.password || ''` and
`r.username || ''`). -/
def getStr : Option Value → String
  | some (.vStr s) => s
  | _ => ""

/-! ## JavaScript string primitives -/

/-- `String.prototype.toLowerCase` for the basic-latin range (the range
`Char.toLower` handles; all counterexamples and records in this
development stay in that range). -/
def jsToLower (s : String) : String :=
  ⟨s.data.map Char.toLower⟩

/-- One decimal digit character, `d ↦ '0' + d`. -/
def digitCh (d : Nat) : Char := Char.ofNat (48 + d)

/-- Fuel-indexed decimal rendering of a natural number (most significant
digit first), as produced by a JavaScript template literal `${n}`. -/
def natDigitsF : Nat → Nat → List Char
  | 0, _ => []
  | fuel + 1, n =>
    if n < 10 then [digitCh n]
    else natDigitsF fuel (n / 10) ++ [digitCh (n % 10)]

/-- Decimal rendering of `n` (the interpolation `${n}`). -/
def natChars (n : Nat) : List Char := natDigitsF (n + 1) n

/-- The template literal `` `${base}-${n}` `` used by the username
resolver's probing loop. -/
def suffixName (base : String) (n : Nat) : String :=
  ⟨base.data ++ '-' :: natChars n⟩

/-! ## UniquenessResolver (`ensureUniqueUsername`) -/

/-- Response of the store's prefix query in `ensureUniqueUsername`:
`error` and `data` as returned by supabase (`data` rows carry a
`username` column). -/
structure ListResp where
  error : Option String
  data : Option (List Rec)
deriving Repr

/-- The lowered username snapshot the resolver builds:
`data.map(r => (r.username || '').toLowerCase())`. -/
def existingOf (data : List Rec) : List String :=
  data.map (fun r => jsToLower (getStr (lookupF r "username")))

/-- The probing loop `let n = 2; while (existing.has(base-n)) n++`,
made structural on an explicit fuel.  The caller passes enough fuel for
the loop to reach a free suffix (proved below). -/
def probeSuffix (base : String) (existing : List String) : Nat → Nat → String
  | 0, n => suffixName base n
  | fuel + 1, n =>
    if suffixName base n ∈ existing then probeSuffix base existing fuel (n + 1)
    else suffixName base n

/-- `ensureUniqueUsername(desired)` from `auth.js`, with the store's
prefix-query response passed explicitly: on query error, missing or empty
data the desired name is returned unchanged; otherwise the lowercased
snapshot is probed. -/
def ensureUniqueUsername (desired : String) (resp : ListResp) : String :=
  match resp.error, resp.data with
  | some _, _ => desired
  | none, none => desired
  | none, some data =>
    if data.length = 0 then desired
    else
      let existing := existingOf data
      if jsToLower desired ∉ existing then desired
      else probeSuffix (jsToLower desired) existing (existing.length + 1) 2

/-! ## JavaScript dates (calendar granularity) -/

/-- A JavaScript `Date`, at the granularity `setMonth`/`getMonth` work at:
`year` = `getFullYear()`, `month` = `getMonth()` (0-based),
`day` = `getDate()` (1-based).  Time of day plays no role in the auth
module's date arithmetic and is not modelled. -/
structure JDate where
  year : Nat
  month : Nat
  day : Nat
deriving DecidableEq, Repr

/-- Gregorian leap-year rule. -/
def isLeap (y : Nat) : Bool :=
  (y % 4 = 0 && y % 100 ≠ 0) || y % 400 = 0

/-- Number of days of 0-based month `m` of year `y`. -/
def daysInMonth (y m : Nat) : Nat :=
  if m = 0 then 31 else if m = 1 then (if isLeap y then 29 else 28)
  else if m = 2 then 31 else if m = 3 then 30 else if m = 4 then 31
  else if m = 5 then 30 else if m = 6 then 31 else if m = 7 then 31
  else if m = 8 then 30 else if m = 9 then 31 else if m = 10 then 30
  else 31

/-- `d.setMonth(d.getMonth() + 3)` of JavaScript: the month index is
advanced by three (carrying into the year), and a day-of-month that does
not exist in the target month overflows into the following month (for any
date read back from a JavaScript `Date` the overflow is at most three
days, so a single carry step suffices). -/
def jsSetMonthPlus3 (d : JDate) : JDate :=
  let t := d.month + 3
  let y := d.year + t / 12
  let m := t % 12
  if d.day ≤ daysInMonth y m then ⟨y, m, d.day⟩
  else
    let d2 := d.day - daysInMonth y m
    if m = 11 then ⟨y + 1, 0, d2⟩ else ⟨y, m + 1, d2⟩

/-- Modelled from the spec: "`password_expire`: timestamp =
`password_fresh` + 3 months" — exact calendar addition of three months,
where a day-of-month missing from the target month clamps to that month's
last day (the conventional meaning of advancing by calendar months; the
repository contains no such function, so this definition follows the
spec's words for comparison with `jsSetMonthPlus3`). -/
def calendarAddThreeMonths (d : JDate) : JDate :=
  let t := d.month + 3
  let y := d.year + t / 12
  let m := t % 12
  ⟨y, m, min d.day (daysInMonth y m)⟩

/-- Zero-padded two-digit rendering (for the month/day of an ISO date). -/
def pad2 (n : Nat) : List Char :=
  if n < 10 then '0' :: natChars n else natChars n

/-- The date part of `Date.prototype.toISOString` (`YYYY-MM-DD`); the time
part carries no information at the modelled granularity. -/
def isoD (d : JDate) : String :=
  ⟨natChars d.year ++ '-' :: (pad2 (d.month + 1) ++ '-' :: pad2 d.day)⟩

/-! ## PasswordHasher (bcrypt model) -/

/-- Modelled from the spec: the PasswordHasher's `hash` — the repository
delegates to the external `bcrypt` library, whose hashes carry the `$2`
scheme marker and verify against exactly their own plaintext.  The model
is the injective tagging `p ↦ "$2b$12$" ++ p` (work factor
`SALT_ROUNDS = 12`); the salt is not modelled. -/
def bhash (p : String) : String :=
  ⟨'$' :: '2' :: 'b' :: '$' :: '1' :: '2' :: '$' :: p.data⟩

/-- Modelled from the spec: `bcrypt.compare(plaintext, stored)` — true
exactly when `stored` is the hash of `plaintext`. -/
def bcompare (p stored : String) : Bool :=
  stored = bhash p

/-- `stored.startsWith('$2')`, the bcrypt-hash classification of
`loginUserByUsername`. -/
def isHashedStr (s : String) : Bool :=
  match s.data with
  | '$' :: '2' :: _ => true
  | _ => false

/-- The credential check of `loginUserByUsername`: hash comparison for a
stored value carrying the `$2` marker, plain string equality otherwise. -/
def verifyCred (password stored : String) : Bool :=
  if isHashedStr stored then bcompare password stored else stored = password

/-! ## Store queries -/

/-- A supabase single-row response: `error` and `data` fields. -/
structure StoreResp where
  error : Option String
  data : Option Rec
deriving DecidableEq, Repr

/-- The error message PostgREST attaches to a `.single()` /
`.maybeSingle()` call that does not find exactly the expected rows. -/
def pgNotSingleMsg : String := "JSON object requested, multiple (or no) rows returned"

/-- `.single()`: exactly one row is data; zero or several rows are a
store error with no data. -/
def singleResp (rows : List Rec) : StoreResp :=
  if h : rows.length = 1 then ⟨none, some (rows.head (by intro he; simp [he] at h))⟩
  else ⟨some pgNotSingleMsg, none⟩

/-- `.maybeSingle()`: zero rows is `null` data without error, one row is
data, several rows are a store error with no data. -/
def maybeSingleResp (rows : List Rec) : StoreResp :=
  if rows.length = 0 then ⟨none, none⟩
  else singleResp rows

/-- The rows selected by `.eq('email', e)`: exact match on the `email`
column. -/
def emailMatches (tbl : List Rec) (e : Option Value) : List Rec :=
  tbl.filter (fun r => lookupF r "email" = e)

/-! ## ILIKE (case-insensitive SQL LIKE, the store's `.ilike` filter) -/

/-- PostgREST's preprocessing of a `like`/`ilike` filter value: every
`*` in the pattern is an alias for `%` and is replaced before the
pattern reaches PostgreSQL. -/
def pgrestStar (pat : List Char) : List Char :=
  pat.map (fun c => if c = '*' then '%' else c)

/-- Fuel-indexed PostgreSQL `LIKE` matcher, case-insensitive: `%`
matches any (possibly empty) substring, `_` any single character, a
backslash (the default escape character) makes the following pattern
character match literally (still case-insensitively), and any other
pattern character matches case-insensitively.  A pattern ending in a
dangling escape is a PostgreSQL query error, so no row is selected; the
matcher returns false there, which yields the same selected-row set.
The fuel passed by `ilikeStr` always suffices (every step shortens
pattern + text). -/
def likeAux : Nat → List Char → List Char → Bool
  | 0, _, _ => false
  | _ + 1, [], s => s.isEmpty
  | fuel + 1, p :: ps, s =>
    if p = '%' then
      likeAux fuel ps s ||
        (match s with
         | [] => false
         | _ :: s2 => likeAux fuel (p :: ps) s2)
    else if p = '\\' then
      match ps with
      | [] => false
      | q :: ps2 =>
        match s with
        | [] => false
        | c :: s2 => (Char.toLower q = Char.toLower c) && likeAux fuel ps2 s2
    else
      match s with
      | [] => false
      | c :: s2 => (p = '_' || Char.toLower p = Char.toLower c) && likeAux fuel ps s2

/-- `column ILIKE pattern` as supabase's `.ilike` filter implements it:
PostgREST first rewrites `*` to `%`, then PostgreSQL matches its
case-insensitive LIKE with the backslash escape character. -/
def ilikeStr (pat s : String) : Bool :=
  likeAux (pat.data.length + s.data.length + 1) (pgrestStar pat.data) s.data

/-- The rows selected by `.ilike('username', pat)`: the stored `username`
must be a present string matching the pattern (a `NULL` column never
matches). -/
def usernameMatches (tbl : List Rec) (pat : String) : List Rec :=
  tbl.filter (fun r =>
    match lookupF r "username" with
    | some (.vStr s) => ilikeStr pat s
    | _ => false)

/-! ## SignupWorkflow (`signupUser`) -/

/-- Result of `signupUser`: a `{ message }` acknowledgment or an
`{ error }` (duplicate email, a thrown-and-caught message, or the
propagated store error of the insert). -/
inductive SignupResult where
  | msg (s : String)
  | err (s : String)
deriving DecidableEq, Repr

/-- The row object `signupUser` inserts: the caller-supplied fields
spread first, then the workflow's own `password` (hashed), `approved`
(false) and the two timestamps, each overriding any caller-supplied value
of the same name. -/
def signupInsertRec (user : Rec) (now : JDate) (pw : String) : Rec :=
  setField (setField (setField (setField user
    "password" (.vStr (bhash pw)))
    "approved" (.vBool false))
    "password_fresh" (.vStr (isoD now)))
    "password_expire" (.vStr (isoD (jsSetMonthPlus3 now)))

/-- `signupUser(user)` from `auth.js`, returning the result together with
the table after the call.  The duplicate check reads only the `data` of
the `.eq('email', …).maybeSingle()` response (the source destructures
`{ data: existing }`, discarding any error).  `now` is the single
`new Date()` of the function; `insertErr` is the store's verdict on the
insert (`none` = accepted).  A candidate without a string `password`
makes `bcrypt.hash` throw, which the `catch` turns into an error result
before any insert. -/
def signupUser (tbl : List Rec) (user : Rec) (now : JDate)
    (insertErr : Option String) : SignupResult × List Rec :=
  if ((maybeSingleResp (emailMatches tbl (lookupF user "email"))).data).isSome then
    (.err "Email already registered", tbl)
  else
    match lookupF user "password" with
    | some (.vStr pw) =>
      match insertErr with
      | some e => (.err e, tbl)
      | none => (.msg "Signup successful, awaiting approval",
          tbl ++ [signupInsertRec user now pw])
    | _ => (.err "data and salt arguments required", tbl)

/-! ## LoginWorkflow (`loginUserByUsername`) -/

/-- Result of `loginUserByUsername`: the safe user record or an error
message. -/
inductive LoginResult where
  | ok (u : Rec)
  | err (s : String)
deriving DecidableEq, Repr

/-- The body of `loginUserByUsername` after the store lookup, applied to
the lookup's response: any lookup error or missing row is
`'No account found'`; an unapproved account is rejected before the
credential is examined; a valid legacy (unhashed) credential triggers the
lazy migration update `{ password: newHash }` keyed by the user's id. -/
def loginCore (resp : StoreResp) (password : String) (tbl : List Rec) :
    LoginResult × List Rec :=
  match resp.error, resp.data with
  | some _, _ => (.err "No account found", tbl)
  | none, none => (.err "No account found", tbl)
  | none, some user =>
    if truthy (lookupF user "approved") = false then
      (.err "Account awaiting approval", tbl)
    else
      let stored := getStr (lookupF user "password")
      if verifyCred password stored = false then (.err "Incorrect password", tbl)
      else
        let tbl2 :=
          if isHashedStr stored then tbl
          else tbl.map (fun r =>
            if lookupF r "id" = lookupF user "id" then
              setField r "password" (.vStr (bhash password))
            else r)
        (.ok (removeField user "password"), tbl2)

/-- The `.ilike('username', username).single()` lookup of
`loginUserByUsername`. -/
def loginLookup (tbl : List Rec) (username : String) : StoreResp :=
  singleResp (usernameMatches tbl username)

/-- `loginUserByUsername(username, password)` from `auth.js`, returning
the result together with the table after the call (the table changes only
through the lazy credential migration). -/
def loginUserByUsername (tbl : List Rec) (username password : String) :
    LoginResult × List Rec :=
  loginCore (loginLookup tbl username) password tbl

/-! ## AccountQuery (`getRole`, `isActive`) -/

/-- Result of `getRole`: the `role` column of the row, or an error
message. -/
inductive RoleResult where
  | role (v : Option Value)
  | err (s : String)
deriving DecidableEq, Repr

/-- Result of `isActive`: the `active` column of the row, or an error
message. -/
inductive ActiveResult where
  | active (v : Option Value)
  | err (s : String)
deriving DecidableEq, Repr

/-- JavaScript `a || b` on strings: the empty string falls through to the
fallback (`error?.message || 'Role not found'`). -/
def strOr (a b : String) : String :=
  if a = "" then b else a

/-- The body of `getRole` applied to the response of
`.select('role').eq('email', email).single()`. -/
def getRoleCore (resp : StoreResp) : RoleResult :=
  match resp.error, resp.data with
  | some e, _ => .err (strOr e "Role not found")
  | none, none => .err "Role not found"
  | none, some d => .role (lookupF d "role")

/-- `getRole(email)` from `auth.js`: a total function — every store
outcome becomes a structured result, nothing is thrown. -/
def getRole (tbl : List Rec) (email : Option Value) : RoleResult :=
  getRoleCore (singleResp (emailMatches tbl email))

/-- The body of `isActive` applied to the response of
`.select('active').eq('email', email).single()`. -/
def isActiveCore (resp : StoreResp) : ActiveResult :=
  match resp.error, resp.data with
  | some e, _ => .err (strOr e "User not found")
  | none, none => .err "User not found"
  | none, some d => .active (lookupF d "active")

/-- `isActive(email)` from `auth.js`: a total function — every store
outcome becomes a structured result, nothing is thrown. -/
def isActive (tbl : List Rec) (email : Option Value) : ActiveResult :=
  isActiveCore (singleResp (emailMatches tbl email))

/-! ## Record lemmas -/

theorem lookupF_eraseKey_self (r : Rec) (k : String) :
    lookupF (eraseKey r k) k = none := by
  induction r with
  | nil => rfl
  | cons a r ih =>
    obtain ⟨k', v⟩ := a
    by_cases h : k' = k
    · rw [eraseKey, if_pos h]; exact ih
    · rw [eraseKey, if_neg h, lookupF, if_neg h]; exact ih

theorem lookupF_eraseKey_ne (r : Rec) (k k' : String) (h : k' ≠ k) :
    lookupF (eraseKey r k) k' = lookupF r k' := by
  induction r with
  | nil => rfl
  | cons a r ih =>
    obtain ⟨ka, v⟩ := a
    by_cases ha : ka = k
    · have hne : ka ≠ k' := by rw [ha]; exact fun he => h he.symm
      rw [eraseKey, if_pos ha, lookupF, if_neg hne]; exact ih
    · rw [eraseKey, if_neg ha, lookupF, lookupF]
      by_cases hk : ka = k'
      · rw [if_pos hk, if_pos hk]
      · rw [if_neg hk, if_neg hk]; exact ih

theorem lookupF_append (l1 l2 : Rec) (k : String) :
    lookupF (l1 ++ l2) k =
      match lookupF l1 k with
      | some v => some v
      | none => lookupF l2 k := by
  induction l1 with
  | nil => simp [lookupF]
  | cons a r ih =>
    by_cases h : a.1 = k
    · simp [lookupF, h]
    · simp [lookupF, h, ih]

theorem lookupF_removeField_self (r : Rec) (k : String) :
    lookupF (removeField r k) k = none :=
  lookupF_eraseKey_self r k

theorem lookupF_removeField_ne (r : Rec) (k k' : String) (h : k' ≠ k) :
    lookupF (removeField r k) k' = lookupF r k' :=
  lookupF_eraseKey_ne r k k' h

theorem lookupF_setField_self (r : Rec) (k : String) (v : Value) :
    lookupF (setField r k v) k = some v := by
  rw [setField, lookupF_append, lookupF_eraseKey_self]
  simp [lookupF]

theorem lookupF_setField_ne (r : Rec) (k k' : String) (v : Value) (h : k' ≠ k) :
    lookupF (setField r k v) k' = lookupF r k' := by
  rw [setField, lookupF_append, lookupF_eraseKey_ne r k k' h]
  cases hl : lookupF r k' with
  | some w => rfl
  | none =>
    rw [lookupF, if_neg (fun he => h he.symm)]
    rfl

/-! ## Character lemmas -/

theorem toNat_ofNat_of_small {n : Nat} (h : n < 55296) : (Char.ofNat n).toNat = n := by
  have hv : n.isValidChar := Or.inl h
  simp [Char.ofNat, dif_pos hv, Char.ofNatAux, Char.toNat, UInt32.toNat]

theorem toLower_toLower (c : Char) : c.toLower.toLower = c.toLower := by
  by_cases h : 65 ≤ c.toNat ∧ c.toNat ≤ 90
  · have h1 : c.toLower = Char.ofNat (c.toNat + 32) := by
      simp [Char.toLower, h.1, h.2]
    have h2 : (Char.ofNat (c.toNat + 32)).toNat = c.toNat + 32 :=
      toNat_ofNat_of_small (by omega)
    rw [h1]
    simp only [Char.toLower, h2]
    rw [if_neg (by omega)]
  · have h1 : c.toLower = c := by
      simp only [Char.toLower]
      rw [if_neg (by omega)]
    rw [h1, h1]

theorem toLower_of_le_57 {c : Char} (h : c.toNat ≤ 57) : Char.toLower c = c := by
  simp only [Char.toLower]
  rw [if_neg (by omega)]

theorem toNat_digitCh {d : Nat} (h : d < 10) : (digitCh d).toNat = 48 + d :=
  toNat_ofNat_of_small (by omega)

theorem toLower_digitCh {d : Nat} (h : d < 10) : Char.toLower (digitCh d) = digitCh d :=
  toLower_of_le_57 (by rw [toNat_digitCh h]; omega)

/-! ## Decimal-rendering lemmas -/

theorem natDigitsF_digits : ∀ fuel n c, c ∈ natDigitsF fuel n → ∃ d, d < 10 ∧ c = digitCh d := by
  intro fuel
  induction fuel with
  | zero => intro n c hc; simp [natDigitsF] at hc
  | succ fuel ih =>
    intro n c hc
    by_cases h : n < 10
    · simp [natDigitsF, h] at hc
      exact ⟨n, h, hc⟩
    · simp [natDigitsF, h] at hc
      rcases hc with hc | hc
      · exact ih _ _ hc
      · exact ⟨n % 10, Nat.mod_lt _ (by omega), hc⟩

/-- Reading a digit string back as a number (left inverse of the decimal
rendering). -/
def digitsVal (l : List Char) : Nat :=
  l.foldl (fun a c => 10 * a + (c.toNat - 48)) 0

theorem digitsVal_natDigitsF : ∀ fuel n, n < fuel →
    (natDigitsF fuel n).foldl (fun a c => 10 * a + (c.toNat - 48)) 0 = n := by
  intro fuel
  induction fuel with
  | zero => intro n h; omega
  | succ fuel ih =>
    intro n h
    by_cases h10 : n < 10
    · simp [natDigitsF, h10, List.foldl, toNat_digitCh h10]
    · have hpos : 0 < n := by omega
      have hlt : n / 10 < fuel :=
        Nat.lt_of_lt_of_le (Nat.div_lt_self hpos (by omega)) (by omega)
      simp only [natDigitsF, if_neg h10, List.foldl_append, List.foldl]
      rw [ih _ hlt, toNat_digitCh (Nat.mod_lt _ (by omega))]
      omega

theorem digitsVal_natChars (n : Nat) : digitsVal (natChars n) = n :=
  digitsVal_natDigitsF (n + 1) n (Nat.lt_succ_self n)

theorem natChars_injective : Function.Injective natChars := by
  intro m n h
  have hm := digitsVal_natChars m
  rw [h, digitsVal_natChars n] at hm
  exact hm.symm

theorem suffixName_injective (base : String) : Function.Injective (suffixName base) := by
  intro m n h
  have hd : base.data ++ '-' :: natChars m = base.data ++ '-' :: natChars n :=
    congrArg String.data h
  have := List.append_cancel_left hd
  exact natChars_injective (by injection this)

theorem map_toLower_natChars (n : Nat) :
    (natChars n).map Char.toLower = natChars n := by
  have : ∀ c ∈ natChars n, Char.toLower c = c := by
    intro c hc
    obtain ⟨d, hd, rfl⟩ := natDigitsF_digits _ _ _ hc
    exact toLower_digitCh hd
  calc (natChars n).map Char.toLower = (natChars n).map id :=
        List.map_congr_left this
    _ = natChars n := List.map_id _

theorem data_jsToLower (s : String) : (jsToLower s).data = s.data.map Char.toLower :=
  rfl

theorem map_toLower_map_toLower (l : List Char) :
    (l.map Char.toLower).map Char.toLower = l.map Char.toLower := by
  rw [List.map_map]
  exact List.map_congr_left (fun c _ => toLower_toLower c)

theorem jsToLower_jsToLower (s : String) : jsToLower (jsToLower s) = jsToLower s := by
  apply congrArg String.mk
  rw [data_jsToLower s]
  exact map_toLower_map_toLower s.data

theorem jsToLower_suffixName (base : String) (n : Nat) :
    jsToLower (suffixName (jsToLower base) n) = suffixName (jsToLower base) n := by
  apply congrArg String.mk
  show ((jsToLower base).data ++ '-' :: natChars n).map Char.toLower = _
  rw [List.map_append, data_jsToLower base, map_toLower_map_toLower]
  have h2 : ('-' :: natChars n).map Char.toLower = '-' :: natChars n := by
    rw [List.map_cons, map_toLower_natChars]
    congr 1
  rw [h2]

/-! ## Probe-loop correctness -/

theorem exists_free_suffix (base : String) (l : List String) (n : Nat) :
    ∃ i, i ≤ l.length ∧ suffixName base (n + i) ∉ l := by
  by_contra hc
  push_neg at hc
  have hall : ∀ i, i < l.length + 1 → suffixName base (n + i) ∈ l := by
    intro i hi
    exact hc i (by omega)
  have hinj : Function.Injective (fun i : Nat => suffixName base (n + i)) := by
    intro a b hab
    have := suffixName_injective base hab
    omega
  have hcard : ((Finset.range (l.length + 1)).image
      (fun i => suffixName base (n + i))).card = l.length + 1 := by
    rw [Finset.card_image_of_injective _ hinj, Finset.card_range]
  have hsub : (Finset.range (l.length + 1)).image (fun i => suffixName base (n + i)) ⊆
      l.toFinset := by
    intro x hx
    rw [Finset.mem_image] at hx
    obtain ⟨i, hi, rfl⟩ := hx
    rw [Finset.mem_range] at hi
    exact List.mem_toFinset.mpr (hall i hi)
  have h1 := Finset.card_le_card hsub
  have h2 := List.toFinset_card_le l
  omega

theorem probeSuffix_spec (base : String) (existing : List String) :
    ∀ fuel n, (∃ i, i < fuel ∧ suffixName base (n + i) ∉ existing) →
    ∃ k, n ≤ k ∧ probeSuffix base existing fuel n = suffixName base k ∧
      suffixName base k ∉ existing ∧
      ∀ m, n ≤ m → m < k → suffixName base m ∈ existing := by
  intro fuel
  induction fuel with
  | zero =>
    intro n h
    obtain ⟨i, hi, _⟩ := h
    omega
  | succ fuel ih =>
    intro n h
    by_cases hmem : suffixName base n ∈ existing
    · rw [probeSuffix, if_pos hmem]
      obtain ⟨i, hi, hfree⟩ := h
      have hine : i ≠ 0 := by
        intro he
        rw [he, Nat.add_zero] at hfree
        exact hfree hmem
      obtain ⟨j, rfl⟩ : ∃ j, i = j + 1 := ⟨i - 1, by omega⟩
      obtain ⟨k, hk1, hk2, hk3, hk4⟩ := ih (n + 1)
        ⟨j, by omega, by rw [show n + 1 + j = n + (j + 1) by omega]; exact hfree⟩
      refine ⟨k, by omega, hk2, hk3, ?_⟩
      intro m hm1 hm2
      rcases Nat.eq_or_lt_of_le hm1 with he | hlt
      · rw [← he]; exact hmem
      · exact hk4 m hlt hm2
    · rw [probeSuffix, if_neg hmem]
      exact ⟨n, Nat.le_refl n, rfl, hmem, fun m hm1 hm2 => absurd (Nat.lt_of_le_of_lt hm1 hm2)
        (Nat.lt_irrefl n)⟩

/-- The probing loop, run with the fuel `ensureUniqueUsername` gives it,
returns the first suffix `base-k` (k ≥ 2, counting up) that is not in the
snapshot. -/
theorem probeSuffix_correct (base : String) (existing : List String) :
    ∃ k, 2 ≤ k ∧ probeSuffix base existing (existing.length + 1) 2 = suffixName base k ∧
      suffixName base k ∉ existing ∧
      ∀ m, 2 ≤ m → m < k → suffixName base m ∈ existing := by
  obtain ⟨i, hi, hfree⟩ := exists_free_suffix base existing 2
  exact probeSuffix_spec base existing (existing.length + 1) 2 ⟨i, by omega, hfree⟩

/-! ## ILIKE lemmas -/

theorem likeAux_no_wildcards :
    ∀ (p : List Char) (s : List Char) (fuel : Nat), p.length + s.length < fuel →
      (∀ c ∈ p, c ≠ '%' ∧ c ≠ '_' ∧ c ≠ '\\') →
      (likeAux fuel p s = true ↔ p.map Char.toLower = s.map Char.toLower) := by
  intro p
  induction p with
  | nil =>
    intro s fuel hfuel _
    obtain ⟨f, rfl⟩ : ∃ f, fuel = f + 1 := ⟨fuel - 1, by omega⟩
    simp only [likeAux]
    cases s with
    | nil => simp
    | cons c s2 => simp [List.isEmpty]
  | cons c ps ih =>
    intro s fuel hfuel hw
    obtain ⟨f, rfl⟩ : ∃ f, fuel = f + 1 := ⟨fuel - 1, by omega⟩
    have hc := hw c (List.mem_cons_self c ps)
    simp only [likeAux]
    rw [if_neg hc.1, if_neg hc.2.2]
    cases s with
    | nil => simp
    | cons a s2 =>
      have hrec := ih s2 f (by simp at hfuel ⊢; omega)
        (fun x hx => hw x (List.mem_cons_of_mem c hx))
      simp only [List.map_cons, List.cons.injEq]
      rw [Bool.and_eq_true, hrec]
      simp [hc.2.1]

/-! ## Store-response lemmas -/

theorem singleResp_of_length_one {rows : List Rec} {r : Rec} (h : rows = [r]) :
    singleResp rows = ⟨none, some r⟩ := by
  subst h
  rfl

theorem singleResp_of_length_ne_one {rows : List Rec} (h : rows.length ≠ 1) :
    singleResp rows = ⟨some pgNotSingleMsg, none⟩ := by
  rw [singleResp, dif_neg h]

theorem singleResp_data_eq_some {rows : List Rec} {r : Rec}
    (h : (singleResp rows).data = some r) : rows = [r] := by
  by_cases h1 : rows.length = 1
  · match rows, h1 with
    | [x], _ =>
      rw [singleResp] at h
      simp at h
      rw [h]
  · rw [singleResp_of_length_ne_one h1] at h
    exact absurd h (by simp)

theorem maybeSingleResp_data_eq_some {rows : List Rec} {r : Rec}
    (h : (maybeSingleResp rows).data = some r) : rows = [r] := by
  rw [maybeSingleResp] at h
  by_cases h0 : rows.length = 0
  · rw [if_pos h0] at h
    exact absurd h (by simp)
  · rw [if_neg h0] at h
    exact singleResp_data_eq_some h

theorem maybeSingleResp_data_of_single {rows : List Rec} {r : Rec} (h : rows = [r]) :
    (maybeSingleResp rows).data = some r := by
  subst h
  rfl

theorem maybeSingleResp_data_of_nil {rows : List Rec} (h : rows = []) :
    (maybeSingleResp rows).data = none := by
  subst h
  rfl

theorem maybeSingleResp_data_of_many {rows : List Rec} (h : 2 ≤ rows.length) :
    (maybeSingleResp rows).data = none := by
  rw [maybeSingleResp, if_neg (by omega), singleResp_of_length_ne_one (by omega)]

/-! ## Login inversion lemmas -/

theorem loginCore_ok_inv {e : Option String} {d : Option Rec} {pw : String}
    {tbl : List Rec} {su : Rec} {tbl2 : List Rec}
    (h : loginCore ⟨e, d⟩ pw tbl = (.ok su, tbl2)) :
    ∃ user, d = some user ∧ su = removeField user "password" := by
  match e, d with
  | some _, _ => exact absurd h (by simp [loginCore])
  | none, none => exact absurd h (by simp [loginCore])
  | none, some user =>
    refine ⟨user, rfl, ?_⟩
    simp only [loginCore] at h
    by_cases h1 : truthy (lookupF user "approved") = false
    · rw [if_pos h1] at h
      exact absurd h (by simp)
    · rw [if_neg h1] at h
      by_cases h2 : verifyCred pw (getStr (lookupF user "password")) = false
      · rw [if_pos h2] at h
        exact absurd h (by simp)
      · rw [if_neg h2] at h
        have := congrArg Prod.fst h
        simp at this
        exact this.symm

/-! ## Sample records (used by the witness theorems) -/

/-- An approved account with a bcrypt-hashed credential. -/
def uAlice : Rec :=
  [("id", .vStr "1"), ("username", .vStr "Alice"),
   ("password", .vStr (bhash "pw")), ("approved", .vBool true),
   ("role", .vStr "admin"), ("active", .vBool true),
   ("email", .vStr "alice@x")]

/-- An approved account with a legacy plaintext credential. -/
def uLegacy : Rec :=
  [("id", .vStr "2"), ("username", .vStr "bob"),
   ("password", .vStr "pw"), ("approved", .vBool true)]

/-- An account still awaiting approval. -/
def uPending : Rec :=
  [("id", .vStr "3"), ("username", .vStr "carol"),
   ("password", .vStr (bhash "pw")), ("approved", .vBool false)]

/-! ## Claim theorems -/

/-- Claim C1: whenever login succeeds, the returned user object contains
no `password` field, and every other field of the looked-up record is
returned unchanged (the safe projection drops exactly the stored
credential). -/
theorem C1_login_strips_password (tbl : List Rec) (un pw : String)
    (su : Rec) (tbl2 : List Rec)
    (h : loginUserByUsername tbl un pw = (.ok su, tbl2)) :
    lookupF su "password" = none ∧
      ∀ rec, (loginLookup tbl un).data = some rec →
        ∀ k, k ≠ "password" → lookupF su k = lookupF rec k := by
  rw [loginUserByUsername] at h
  obtain ⟨user, hd, hsu⟩ := loginCore_ok_inv h
  constructor
  · rw [hsu]
    exact lookupF_removeField_self user "password"
  · intro rec hrec k hk
    have hd' : (loginLookup tbl un).data = some user := hd
    rw [hd'] at hrec
    have : user = rec := by injection hrec
    rw [hsu, this]
    exact lookupF_removeField_ne rec "password" k hk

theorem C1_login_strips_password_witness :
    lookupF [("id", Value.vStr "1"), ("username", Value.vStr "Alice"),
      ("approved", Value.vBool true), ("role", Value.vStr "admin"),
      ("active", Value.vBool true), ("email", Value.vStr "alice@x")] "password" = none ∧
    lookupF [("id", Value.vStr "1"), ("username", Value.vStr "Alice"),
      ("approved", Value.vBool true), ("role", Value.vStr "admin"),
      ("active", Value.vBool true), ("email", Value.vStr "alice@x")] "role" =
      lookupF uAlice "role" := by
  have h := C1_login_strips_password [uAlice] "alice" "pw" _ _ rfl
  exact ⟨h.1, h.2 uAlice rfl "role" (by decide)⟩

/-- Claim C2: for every account record with `approved == false`, login
fails with the pending-approval error whatever password is supplied — the
approval gate fires before any credential verification. -/
theorem C2_unapproved_rejected (tbl : List Rec) (un pw : String) (rec : Rec)
    (hlook : loginLookup tbl un = ⟨none, some rec⟩)
    (happ : lookupF rec "approved" = some (.vBool false)) :
    loginUserByUsername tbl un pw = (.err "Account awaiting approval", tbl) := by
  rw [loginUserByUsername, hlook]
  simp only [loginCore, happ]
  rw [if_pos (show truthy (some (Value.vBool false)) = false from rfl)]

theorem C2_unapproved_rejected_witness :
    loginUserByUsername [uPending] "carol" "pw" = (.err "Account awaiting approval", [uPending]) :=
  C2_unapproved_rejected [uPending] "carol" "pw" uPending rfl rfl

/-- Claim C10: any error of the login username lookup — whatever the
store attaches as data — yields the same `'No account found'` result as a
missing account, and so does the genuinely missing row; the lookup step
never surfaces a store-error-kind result. -/
theorem C10_lookup_error_conflated (e : String) (d : Option Rec) (pw : String)
    (tbl : List Rec) :
    loginCore ⟨some e, d⟩ pw tbl = (.err "No account found", tbl) ∧
      loginCore ⟨none, none⟩ pw tbl = (.err "No account found", tbl) :=
  ⟨rfl, rfl⟩

/-! ## Signup inversion -/

/-- Whenever `signupUser` extends the table by a row, that row is
`signupInsertRec` built from the candidate's string password, the insert
was accepted, and the result is the success acknowledgment. -/
theorem signup_inserted_eq {tbl : List Rec} {user : Rec} {now : JDate}
    {ie : Option String} {res : SignupResult} {r : Rec}
    (h : signupUser tbl user now ie = (res, tbl ++ [r])) :
    ∃ pw, lookupF user "password" = some (.vStr pw) ∧
      r = signupInsertRec user now pw ∧ ie = none ∧
      res = .msg "Signup successful, awaiting approval" := by
  have hne : tbl ≠ tbl ++ [r] := by
    intro he
    have := congrArg List.length he
    simp at this
  rw [signupUser] at h
  by_cases hdup :
      ((maybeSingleResp (emailMatches tbl (lookupF user "email"))).data).isSome = true
  · rw [if_pos hdup] at h
    exact absurd (congrArg Prod.snd h) hne
  · rw [if_neg hdup] at h
    match hpw : lookupF user "password" with
    | none =>
      rw [hpw] at h
      exact absurd (congrArg Prod.snd h) hne
    | some (.vBool b) =>
      rw [hpw] at h
      exact absurd (congrArg Prod.snd h) hne
    | some (.vStr pw) =>
      rw [hpw] at h
      match ie with
      | some e => exact absurd (congrArg Prod.snd h) hne
      | none =>
        refine ⟨pw, rfl, ?_, rfl, ?_⟩
        · have := congrArg Prod.snd h
          simp only at this
          have := List.append_cancel_left this
          injection this with h1 _
          exact h1.symm
        · have := congrArg Prod.fst h
          simp only at this
          exact this.symm

/-! ## Claims C3, C4, C7 -/

/-- A store row carrying the email that the duplicate-signup
counterexample reuses. -/
def dupRow : Rec := [("email", .vStr "dup@x")]

/-- The signup candidate of the duplicate-email scenarios. -/
def candDup : Rec := [("email", .vStr "dup@x"), ("password", .vStr "secret")]

/-- Claim C3 counterexample: in a store already holding two rows with the
candidate's email (a state the pre-insert check is supposed to guard
against), `signupUser` does not return the duplicate-email error and does
insert — `.maybeSingle()` turns the multi-row match into an error whose
`data` is null, and the code reads only `data`.  The claim's "for every
store state in which a record with the candidate's email already exists"
therefore fails. -/
theorem C3_counterexample :
    lookupF dupRow "email" = lookupF candDup "email" ∧
    (signupUser [dupRow, dupRow] candDup ⟨2025, 0, 15⟩ none).1 =
      .msg "Signup successful, awaiting approval" ∧
    (signupUser [dupRow, dupRow] candDup ⟨2025, 0, 15⟩ none).2 ≠ [dupRow, dupRow] := by
  refine ⟨rfl, rfl, ?_⟩
  intro h
  have := congrArg List.length h
  have h2 : (signupUser [dupRow, dupRow] candDup ⟨2025, 0, 15⟩ none).2.length = 3 := rfl
  rw [h2] at this
  simp at this

/-- Claim C3 (amended): when exactly one stored record carries the
candidate's email, signup fails with the duplicate-email error and leaves
the store unchanged whatever the insert verdict would have been; when no
record carries it, the candidate has a string password and the store
accepts, signup performs exactly one insert. -/
theorem C3_duplicate_email (tbl : List Rec) (user : Rec) (now : JDate)
    (e : Value) (hemail : lookupF user "email" = some e) :
    ((emailMatches tbl (some e)).length = 1 →
      ∀ ie, signupUser tbl user now ie = (.err "Email already registered", tbl)) ∧
    ((emailMatches tbl (some e)).length = 0 →
      ∀ pw, lookupF user "password" = some (.vStr pw) →
        signupUser tbl user now none =
          (.msg "Signup successful, awaiting approval",
           tbl ++ [signupInsertRec user now pw])) := by
  constructor
  · intro h1 ie
    obtain ⟨a, ha⟩ := List.length_eq_one.mp h1
    have hd : ((maybeSingleResp (emailMatches tbl (lookupF user "email"))).data).isSome = true := by
      rw [hemail, ha, maybeSingleResp_data_of_single rfl]
      rfl
    rw [signupUser, if_pos hd]
  · intro h0 pw hpw
    have hd : ((maybeSingleResp (emailMatches tbl (lookupF user "email"))).data).isSome = false := by
      rw [hemail, maybeSingleResp_data_of_nil (List.length_eq_zero.mp h0)]
      rfl
    rw [signupUser, if_neg (by rw [hd]; exact Bool.false_ne_true), hpw]

theorem C3_duplicate_email_witness :
    signupUser [dupRow] candDup ⟨2025, 0, 15⟩ (some "boom") =
      (.err "Email already registered", [dupRow]) ∧
    signupUser [] candDup ⟨2025, 0, 15⟩ none =
      (.msg "Signup successful, awaiting approval",
       [] ++ [signupInsertRec candDup ⟨2025, 0, 15⟩ "secret"]) := by
  have h := C3_duplicate_email [dupRow] candDup ⟨2025, 0, 15⟩ (.vStr "dup@x") rfl
  have h' := C3_duplicate_email [] candDup ⟨2025, 0, 15⟩ (.vStr "dup@x") rfl
  exact ⟨h.1 (by decide) (some "boom"), h'.2 (by decide) "secret" rfl⟩

/-- Claim C4: every record `signupUser` inserts has `approved == false`,
a hashed — never plaintext — password, and the workflow's own timestamps,
for every candidate input: the workflow's values override any
caller-supplied `approved`, `password`, `password_fresh` or
`password_expire` field. -/
theorem C4_inserted_record_invariants (tbl : List Rec) (user : Rec) (now : JDate)
    (ie : Option String) (res : SignupResult) (r : Rec)
    (h : signupUser tbl user now ie = (res, tbl ++ [r])) :
    ∃ pw, lookupF user "password" = some (.vStr pw) ∧
      lookupF r "approved" = some (.vBool false) ∧
      lookupF r "password" = some (.vStr (bhash pw)) ∧
      isHashedStr (bhash pw) = true ∧ bhash pw ≠ pw ∧
      lookupF r "password_fresh" = some (.vStr (isoD now)) ∧
      lookupF r "password_expire" = some (.vStr (isoD (jsSetMonthPlus3 now))) := by
  obtain ⟨pw, hpw, hr, -, -⟩ := signup_inserted_eq h
  subst hr
  refine ⟨pw, hpw, ?_, ?_, rfl, ?_, ?_, ?_⟩
  · rw [signupInsertRec, lookupF_setField_ne _ _ _ _ (by decide),
      lookupF_setField_ne _ _ _ _ (by decide), lookupF_setField_self]
  · rw [signupInsertRec, lookupF_setField_ne _ _ _ _ (by decide),
      lookupF_setField_ne _ _ _ _ (by decide),
      lookupF_setField_ne _ _ _ _ (by decide), lookupF_setField_self]
  · intro he
    have hd := congrArg String.data he
    have hl := congrArg List.length hd
    simp [bhash] at hl
    omega
  · rw [signupInsertRec, lookupF_setField_ne _ _ _ _ (by decide), lookupF_setField_self]
  · rw [signupInsertRec, lookupF_setField_self]

theorem C4_inserted_record_invariants_witness :
    lookupF (signupInsertRec candDup ⟨2025, 0, 15⟩ "secret") "approved" =
      some (.vBool false) ∧
    lookupF (signupInsertRec candDup ⟨2025, 0, 15⟩ "secret") "password" =
      some (.vStr (bhash "secret")) ∧ bhash "secret" ≠ "secret" := by
  obtain ⟨pw, h1, h2, h3, h4, h5, h6, h7⟩ :=
    C4_inserted_record_invariants [] candDup ⟨2025, 0, 15⟩ none
      (.msg "Signup successful, awaiting approval")
      (signupInsertRec candDup ⟨2025, 0, 15⟩ "secret") rfl
  have hpw : pw = "secret" := by
    have : some (Value.vStr "secret") = some (Value.vStr pw) := h1
    injection this with h
    injection h with h
    exact h.symm
  subst hpw
  exact ⟨h2, h3, h5⟩

/-- Claim C7 counterexample: for `now` = 30 November 2025 the code's
`setMonth(getMonth() + 3)` lands on 2 March 2026, not on the last day of
February 2026 that advancing by exactly three calendar months would give:
JavaScript rolls a day-of-month overflow into the following month instead
of clamping. -/
theorem C7_counterexample :
    jsSetMonthPlus3 ⟨2025, 10, 30⟩ = ⟨2026, 2, 2⟩ ∧
    calendarAddThreeMonths ⟨2025, 10, 30⟩ = ⟨2026, 1, 28⟩ ∧
    jsSetMonthPlus3 ⟨2025, 10, 30⟩ ≠ calendarAddThreeMonths ⟨2025, 10, 30⟩ := by
  refine ⟨by decide, by decide, by decide⟩

/-- Claim C7 (amended): every inserted record has
`password_fresh = now` and `password_expire = setMonth(now + 3)`, where
the JavaScript month arithmetic agrees with exact three-calendar-month
addition precisely when `now`'s day-of-month exists in the target month;
otherwise the day overflows into the month after the target. -/
theorem C7_expiry_stamp (tbl : List Rec) (user : Rec) (now : JDate)
    (ie : Option String) (res : SignupResult) (r : Rec)
    (h : signupUser tbl user now ie = (res, tbl ++ [r])) :
    lookupF r "password_fresh" = some (.vStr (isoD now)) ∧
    lookupF r "password_expire" = some (.vStr (isoD (jsSetMonthPlus3 now))) ∧
    (jsSetMonthPlus3 now = calendarAddThreeMonths now ↔
      now.day ≤ daysInMonth (now.year + (now.month + 3) / 12) ((now.month + 3) % 12)) := by
  obtain ⟨pw, hpw, hr, -, -⟩ := signup_inserted_eq h
  subst hr
  refine ⟨?_, ?_, ?_⟩
  · rw [signupInsertRec, lookupF_setField_ne _ _ _ _ (by decide), lookupF_setField_self]
  · rw [signupInsertRec, lookupF_setField_self]
  · constructor
    · intro he
      by_contra hday
      rw [jsSetMonthPlus3, calendarAddThreeMonths] at he
      simp only [if_neg hday] at he
      by_cases hm : (now.month + 3) % 12 = 11
      · rw [if_pos hm] at he
        have := congrArg JDate.year he
        simp at this
      · rw [if_neg hm] at he
        have := congrArg JDate.month he
        simp at this
    · intro hday
      rw [jsSetMonthPlus3, calendarAddThreeMonths]
      simp only [if_pos hday]
      rw [Nat.min_eq_left hday]

theorem C7_expiry_stamp_witness :
    lookupF (signupInsertRec candDup ⟨2025, 0, 15⟩ "secret") "password_fresh" =
      some (.vStr (isoD ⟨2025, 0, 15⟩)) ∧
    (jsSetMonthPlus3 ⟨2025, 0, 15⟩ = calendarAddThreeMonths ⟨2025, 0, 15⟩ ↔
      15 ≤ daysInMonth 2025 3) := by
  have h := C7_expiry_stamp [] candDup ⟨2025, 0, 15⟩ none
    (.msg "Signup successful, awaiting approval")
    (signupInsertRec candDup ⟨2025, 0, 15⟩ "secret") rfl
  exact ⟨h.1, h.2.2⟩

/-! ## Claims C5, C6, C8, C9 -/

/-- Claim C5: a stored credential is classified as hashed exactly when it
starts with the `$2` marker; an unmarked (legacy) credential verifies iff
the plaintext is string-equal to it; every hasher output carries the
marker and verifies against its own plaintext; and the value the login
migration writes for a valid legacy credential is the hash of the
supplied password — hence subsequently classified as hashed. -/
theorem C5_verification_scheme :
    (∀ s : String, isHashedStr s = true ↔ ∃ t, s.data = '$' :: '2' :: t) ∧
    (∀ pw stored : String, isHashedStr stored = false →
      (verifyCred pw stored = true ↔ stored = pw)) ∧
    (∀ pw : String, isHashedStr (bhash pw) = true ∧ verifyCred pw (bhash pw) = true) ∧
    (∀ tbl un pw user, loginLookup tbl un = ⟨none, some user⟩ →
      truthy (lookupF user "approved") = true →
      isHashedStr (getStr (lookupF user "password")) = false →
      getStr (lookupF user "password") = pw →
      loginUserByUsername tbl un pw =
        (.ok (removeField user "password"),
         tbl.map (fun r => if lookupF r "id" = lookupF user "id" then
           setField r "password" (.vStr (bhash pw)) else r)) ∧
      ∀ r : Rec, lookupF (setField r "password" (.vStr (bhash pw))) "password" =
        some (.vStr (bhash pw))) := by
  refine ⟨?_, ?_, ?_, ?_⟩
  · intro s
    constructor
    · intro h
      rw [isHashedStr] at h
      split at h
      · next t heq => exact ⟨t, heq⟩
      · exact absurd h (by simp)
    · rintro ⟨t, ht⟩
      rw [isHashedStr, ht]
      rfl
  · intro pw stored h
    rw [verifyCred, if_neg (by rw [h]; exact Bool.false_ne_true)]
    simp
  · intro pw
    refine ⟨rfl, ?_⟩
    rw [verifyCred, if_pos (show isHashedStr (bhash pw) = true from rfl)]
    simp [bcompare]
  · intro tbl un pw user hlook happ hleg hst
    constructor
    · rw [loginUserByUsername, hlook]
      simp only [loginCore]
      rw [if_neg (by rw [happ]; decide)]
      have hvalid : verifyCred pw (getStr (lookupF user "password")) = true := by
        rw [verifyCred, if_neg (by rw [hleg]; exact Bool.false_ne_true)]
        simp [hst]
      rw [if_neg (by rw [hvalid]; decide)]
      rw [if_neg (by rw [hleg]; exact Bool.false_ne_true)]
    · intro r
      exact lookupF_setField_self r "password" (.vStr (bhash pw))

theorem C5_verification_scheme_witness :
    verifyCred "pw" "pw" = true ∧
    loginUserByUsername [uLegacy] "bob" "pw" =
      (.ok (removeField uLegacy "password"),
       [setField uLegacy "password" (.vStr (bhash "pw"))]) := by
  have h := C5_verification_scheme
  refine ⟨(h.2.1 "pw" "pw" rfl).mpr rfl, ?_⟩
  have h4 := (h.2.2.2 [uLegacy] "bob" "pw" uLegacy rfl rfl rfl rfl).1
  rw [h4]
  rfl

/-- Claim C6 counterexample: the resolver lowercases the desired name in
the collision branch, so for `desired = "Abc01"` colliding with a stored
`"abc01"` it returns `"abc01-2"`, not the `"Abc01-2"` that the claim's
sequence `desired-2, desired-3, …` prescribes. -/
theorem C6_counterexample :
    ensureUniqueUsername "Abc01" ⟨none, some [[("username", .vStr "abc01")]]⟩ =
      "abc01-2" ∧ ("abc01-2" : String) ≠ "Abc01-2" := by
  refine ⟨by decide, by decide⟩

/-- Claim C6 (amended): on query error, missing or empty data the desired
name is returned unchanged; if the lowercased desired name is absent from
the lowercased snapshot it is returned as-is; otherwise the resolver
returns the first name of the sequence `lower(desired)-2`,
`lower(desired)-3`, … (increasing) not present in the snapshot — the
probing loop always reaches one — and in every non-error case the
returned name's lowercasing is absent from the snapshot. -/
theorem C6_resolver_correct (desired : String) (e : String) (data : List Rec) :
    (ensureUniqueUsername desired ⟨some e, some data⟩ = desired ∧
     ensureUniqueUsername desired ⟨some e, none⟩ = desired ∧
     ensureUniqueUsername desired ⟨none, none⟩ = desired) ∧
    (data = [] → ensureUniqueUsername desired ⟨none, some data⟩ = desired) ∧
    (jsToLower desired ∉ existingOf data →
      ensureUniqueUsername desired ⟨none, some data⟩ = desired) ∧
    (data ≠ [] → jsToLower desired ∈ existingOf data →
      ∃ k, 2 ≤ k ∧
        ensureUniqueUsername desired ⟨none, some data⟩ =
          suffixName (jsToLower desired) k ∧
        suffixName (jsToLower desired) k ∉ existingOf data ∧
        ∀ m, 2 ≤ m → m < k → suffixName (jsToLower desired) m ∈ existingOf data) ∧
    jsToLower (ensureUniqueUsername desired ⟨none, some data⟩) ∉ existingOf data := by
  have hlen : data.length = data.length := rfl
  refine ⟨⟨rfl, rfl, rfl⟩, ?_, ?_, ?_, ?_⟩
  · intro h
    subst h
    rfl
  · intro hno
    by_cases hd : data = []
    · subst hd
      rfl
    · rw [ensureUniqueUsername]
      simp only
      rw [if_neg (fun h0 => hd (List.length_eq_zero.mp h0)), if_pos hno]
  · intro hd hmem
    rw [ensureUniqueUsername]
    simp only
    rw [if_neg (fun h0 => hd (List.length_eq_zero.mp h0)), if_neg (not_not_intro hmem)]
    exact probeSuffix_correct (jsToLower desired) (existingOf data)
  · by_cases hd : data = []
    · subst hd
      simp [existingOf]
    · by_cases hmem : jsToLower desired ∈ existingOf data
      · rw [ensureUniqueUsername]
        simp only
        rw [if_neg (fun h0 => hd (List.length_eq_zero.mp h0)), if_neg (not_not_intro hmem)]
        obtain ⟨k, -, heq, hfree, -⟩ :=
          probeSuffix_correct (jsToLower desired) (existingOf data)
        rw [heq, jsToLower_suffixName]
        exact hfree
      · rw [ensureUniqueUsername]
        simp only
        rw [if_neg (fun h0 => hd (List.length_eq_zero.mp h0)), if_pos hmem]
        exact hmem

theorem C6_resolver_correct_witness :
    ensureUniqueUsername "abc01" ⟨none, some []⟩ = "abc01" ∧
    jsToLower (ensureUniqueUsername "abc01"
        ⟨none, some [[("username", Value.vStr "abc01")]]⟩) ∉
      existingOf [[("username", Value.vStr "abc01")]] :=
  ⟨(C6_resolver_correct "abc01" "" []).2.1 rfl,
   (C6_resolver_correct "abc01" "" [[("username", Value.vStr "abc01")]]).2.2.2.2⟩

/-- Claim C8 counterexample: the login lookup sends the raw username as
an ILIKE pattern, so the input `"%"` selects the stored record whose
username is `"Alice"` although the two are not equal case-insensitively
— the lookup is not an exact case-insensitive match for arbitrary input
characters.  The further conjuncts exhibit the other pattern
metacharacters of the real stack: PostgREST's `*` alias for `%`, and
PostgreSQL's backslash escape, under which the pattern `Ali\ce` matches
the stored `Alice` but not a stored `Ali\ce`. -/
theorem C8_counterexample :
    ilikeStr "%" "Alice" = true ∧ jsToLower "%" ≠ jsToLower "Alice" ∧
    (loginLookup [uAlice] "%").data = some uAlice ∧
    ilikeStr "Al*" "Alice" = true ∧
    ilikeStr "Ali\\ce" "Alice" = true ∧
    ilikeStr "Ali\\ce" "Ali\\ce" = false := by
  refine ⟨rfl, by decide, rfl, rfl, rfl, rfl⟩

/-- Claim C8 (amended): for username inputs containing none of the
pattern metacharacters of the store stack — `%`, `_`, PostgREST's `*`
alias and the backslash escape — the lookup's ILIKE match coincides with
case-insensitive string equality; and whenever the match count differs
from one — zero or multiple rows — login fails with the
account-not-found error. -/
theorem C8_lookup_semantics :
    (∀ pat s : String,
      (∀ c ∈ pat.data, c ≠ '%' ∧ c ≠ '_' ∧ c ≠ '*' ∧ c ≠ '\\') →
      (ilikeStr pat s = true ↔ jsToLower pat = jsToLower s)) ∧
    (∀ tbl un pw, (usernameMatches tbl un).length ≠ 1 →
      loginUserByUsername tbl un pw = (.err "No account found", tbl)) := by
  constructor
  · intro pat s hw
    have hstar : pgrestStar pat.data = pat.data := by
      rw [pgrestStar]
      calc pat.data.map (fun c => if c = '*' then '%' else c)
          = pat.data.map id :=
            List.map_congr_left (fun c hcm => if_neg (hw c hcm).2.2.1)
        _ = pat.data := List.map_id _
    rw [ilikeStr, hstar, likeAux_no_wildcards pat.data s.data _ (by omega)
      (fun c hcm => ⟨(hw c hcm).1, (hw c hcm).2.1, (hw c hcm).2.2.2⟩)]
    constructor
    · intro h
      exact congrArg String.mk h
    · intro h
      have := congrArg String.data h
      exact this
  · intro tbl un pw h
    rw [loginUserByUsername, loginLookup, singleResp_of_length_ne_one h]
    rfl

theorem C8_lookup_semantics_witness :
    ilikeStr "alice" "ALICE" = true ∧
    loginUserByUsername [uAlice] "nosuch" "pw" =
      (.err "No account found", [uAlice]) := by
  have h := C8_lookup_semantics
  exact ⟨(h.1 "alice" "ALICE" (by decide)).mpr (by decide),
    h.2 [uAlice] "nosuch" "pw" (by decide)⟩

/-- Claim C9: `getRole` and `isActive` always return a structured result
(the embedding is a total function — nothing is thrown): the store's
error message is propagated verbatim (for any nonempty message, with the
code's not-found fallback for a message JavaScript's `||` treats as
falsy), a missing row yields the not-found-class error, and a unique row
yields exactly the single requested column. -/
theorem C9_role_active_queries :
    (∀ e : String, e ≠ "" → ∀ d,
      getRoleCore ⟨some e, d⟩ = .err e ∧ isActiveCore ⟨some e, d⟩ = .err e) ∧
    (getRoleCore ⟨none, none⟩ = .err "Role not found" ∧
     isActiveCore ⟨none, none⟩ = .err "User not found") ∧
    (∀ tbl email rec, emailMatches tbl email = [rec] →
      getRole tbl email = .role (lookupF rec "role") ∧
      isActive tbl email = .active (lookupF rec "active")) ∧
    (∀ tbl email, (emailMatches tbl email).length ≠ 1 →
      getRole tbl email = .err pgNotSingleMsg ∧
      isActive tbl email = .err pgNotSingleMsg) := by
  refine ⟨?_, ⟨rfl, rfl⟩, ?_, ?_⟩
  · intro e he d
    constructor
    · rw [getRoleCore]
      simp only [strOr, if_neg he]
    · rw [isActiveCore]
      simp only [strOr, if_neg he]
  · intro tbl email rec h
    rw [getRole, isActive, singleResp_of_length_one h]
    exact ⟨rfl, rfl⟩
  · intro tbl email h
    rw [getRole, isActive, singleResp_of_length_ne_one h]
    exact ⟨rfl, rfl⟩

theorem C9_role_active_queries_witness :
    getRoleCore ⟨some "boom", none⟩ = .err "boom" ∧
    getRole [uAlice] (some (.vStr "alice@x")) = .role (some (.vStr "admin")) ∧
    isActive [] (some (.vStr "nobody@x")) = .err pgNotSingleMsg := by
  have h := C9_role_active_queries
  refine ⟨(h.1 "boom" (by decide) none).1, ?_, (h.2.2.2 [] (some (.vStr "nobody@x")) (by decide)).2⟩
  have h3 := (h.2.2.1 [uAlice] (some (.vStr "alice@x")) uAlice (by decide)).1
  rw [h3]
  rfl

end HornetHive
